import Mathlib

/-!
Verification of the crossword CSP solver (`generate.py`, class `CrosswordCreator`).

The embedding models words as lists of characters, variable domains as a total
function from variables to word lists (Python's per-variable word sets, in
iteration order), and each method of `CrosswordCreator` as a pure function.
Methods that mutate `self.domains` (revise, ac3) return the updated store;
the search methods are additionally given a store-threading variant
(`backtrackS`) so that the frame property "search never writes the store"
is a theorem rather than a modelling assumption.
-/

namespace Crossword

/-- Direction of a variable (crossword slot): across or down. -/
inductive Direction where
  | across : Direction
  | down : Direction
deriving DecidableEq, Repr

/-- Modelled from the spec: class `Variable` of the missing `crossword.py` —
a maximal run of open cells, identified by start cell, direction and length,
with structural equality on all four fields. -/
structure Var where
  i : Nat
  j : Nat
  dir : Direction
  length : Nat
deriving DecidableEq, Repr

/-- A candidate word. -/
abbrev Word : Type := List Char

/-- Modelled from the spec: a puzzle instance as consumed by `CrosswordCreator`:
the variable list (Python's `crossword.variables`, in iteration order), the
overlap table `crossword.overlaps` (None for pairs that never intersect),
and the word list `crossword.words`. -/
structure CSP where
  vars : List Var
  overlaps : Var → Var → Option (Nat × Nat)
  words : List Word

/-- The domain store `self.domains`: every variable's current candidate list. -/
abbrev Domains : Type := Var → List Word

/-- `self.domains` as built by `CrosswordCreator.__init__`: every variable
starts with a copy of the full word list. -/
def initialDomains (c : CSP) : Domains := fun _ => c.words

/-- Pointwise store update (assignment to `self.domains[x]`). -/
def updateD (d : Domains) (x : Var) (l : List Word) : Domains :=
  fun v => if v = x then l else d v

/-- Modelled from the spec: `crossword.neighbors(x)` of the missing
`crossword.py` — the variables sharing an overlap entry with `x`. -/
def neighbors (c : CSP) (x : Var) : List Var :=
  c.vars.filter (fun y => decide (y ≠ x) && (c.overlaps x y).isSome)

/-- `word[k]` on a candidate word; out-of-range access is modelled as a
blank character (the solver only indexes at overlap offsets). -/
def charAt (w : Word) (k : Nat) : Char :=
  List.getD w k ' '

/-- The inner loop of `revise`: does some `y_word` in `dy` match `w` at the
overlap offsets (`x_word[overlap[0]] == y_word[overlap[1]]`)? -/
def hasMatch (dy : List Word) (ov : Nat × Nat) (w : Word) : Bool :=
  dy.any (fun yw => charAt w ov.1 == charAt yw ov.2)

/-- One iteration of the `enforce_node_consistency` loop: remove from
`domains[var]` the words whose length differs from `var.length`. -/
def encStep (acc : Domains) (var : Var) : Domains :=
  updateD acc var ((acc var).filter (fun w => w.length == var.length))

/-- `CrosswordCreator.enforce_node_consistency`: for each variable in
iteration order, drop the words whose length differs from the variable's
length. -/
def enforce_node_consistency (c : CSP) (d : Domains) : Domains :=
  c.vars.foldl encStep d

/-- `CrosswordCreator.revise`: remove from `domains[x]` the words with no
match in `domains[y]`; return whether anything was removed, together with
the updated store.  With no overlap entry the store is returned untouched. -/
def revise (c : CSP) (x y : Var) (d : Domains) : Bool × Domains :=
  match c.overlaps x y with
  | none => (false, d)
  | some ov =>
      let removeList := (d x).filter (fun w => !(hasMatch (d y) ov w))
      (!removeList.isEmpty,
       updateD d x ((d x).filter (fun w => hasMatch (d y) ov w)))

/-- The arcs `ac3` pushes back after `revise(x, y)` removed words and left
`domains[x]` non-empty: one arc per neighbor of `x` other than `y`, each with
`x` as FIRST component (`arc_list.insert(0, (current_arc[0], var))`), in
reverse neighbor order since each is inserted at the front. -/
def ac3Requeue (c : CSP) (x y : Var) : List (Var × Var) :=
  (((neighbors c x).filter (fun z => z != y)).reverse).map (fun z => (x, z))

/-- The worklist loop of `CrosswordCreator.ac3`, with an explicit fuel for
the number of loop iterations (the Python loop needs no fuel; `ac3FuelBound`
below over-approximates the iteration count, so the zero-fuel branch is
never reached from `ac3`). -/
def ac3go (c : CSP) : Nat → List (Var × Var) → Domains → Bool × Domains
  | _, [], d => (true, d)
  | 0, _ :: _, d => (true, d)
  | fuel + 1, (x, y) :: rest, d =>
      let r := revise c x y d
      if r.1 then
        if (r.2 x).length = 0 then (false, r.2)
        else ac3go c fuel (ac3Requeue c x y ++ rest) r.2
      else ac3go c fuel rest r.2

/-- The initial worklist when `ac3` is called with `arcs=None`: every arc
`(x, var)` for `x` in domain-store order and `var` a neighbor of `x`. -/
def defaultArcs (c : CSP) : List (Var × Var) :=
  c.vars.flatMap (fun x => (neighbors c x).map (fun z => (x, z)))

/-- Resolution of the optional `arcs` argument of `ac3`. -/
def resolveArcs (c : CSP) (arcs : Option (List (Var × Var))) : List (Var × Var) :=
  match arcs with
  | none => defaultArcs c
  | some l => l

/-- Termination measure of the `ac3` worklist loop: total size of the
domains of the variable pool (instance variables and worklist first
components) weighted by `|vars| + 1`, plus the worklist length.  Every
iteration strictly decreases it (`ac3Measure_dec_change`,
`ac3Measure_dec_nochange`). -/
def ac3Measure (c : CSP) (arcs : List (Var × Var)) (d : Domains) : Nat :=
  ((c.vars.toFinset ∪ (arcs.map Prod.fst).toFinset).sum (fun v => (d v).length))
      * (c.vars.length + 1)
    + arcs.length

/-- Upper bound on the number of loop iterations `ac3` can perform: every
iteration either shortens the worklist keeping every domain, or strictly
shrinks the domain of a variable in the pool, adding at most
`c.vars.length` arcs.  Sufficiency is `ac3go_fuel_stable`; the Python loop
needs no fuel at all. -/
def ac3FuelBound (c : CSP) (arcs : List (Var × Var)) (d : Domains) : Nat :=
  ac3Measure c arcs d + 1

/-- `CrosswordCreator.ac3`: resolve the optional arc list, run the worklist
loop, return whether no domain was emptied together with the updated store. -/
def ac3 (c : CSP) (arcs : Option (List (Var × Var))) (d : Domains) : Bool × Domains :=
  let l := resolveArcs c arcs
  ac3go c (ac3FuelBound c l d) l d

/-- A (partial) assignment: a variable-to-word mapping in insertion order,
mirroring the Python dict passed through `backtrack`. -/
abbrev Assignment : Type := List (Var × Word)

/-- Dict lookup `assignment[v]` (first entry wins; search assignments have
unique keys). -/
def lookupA : Assignment → Var → Option Word
  | [], _ => none
  | p :: rest, v => if p.1 = v then some p.2 else lookupA rest v

/-- Membership test `v in assignment`. -/
def assignedB (asn : Assignment) (v : Var) : Bool :=
  asn.any (fun p => p.1 == v)

/-- One entry's checks in `CrosswordCreator.consistent`: word not used
before, word length equal to the variable length, and agreement with every
assigned neighbor at the overlap offsets.  Neighbors always carry an overlap
entry, so the `none` overlap branch is unreachable. -/
def entryOK (c : CSP) (asn : Assignment) (used : List Word) (var : Var) (w : Word) : Bool :=
  if used.contains w then false
  else if var.length != w.length then false
  else (neighbors c var).all (fun n =>
    match lookupA asn n with
    | none => true
    | some nw =>
        match c.overlaps var n with
        | some ov => charAt w ov.1 == charAt nw ov.2
        | none => true)

/-- The entry loop of `CrosswordCreator.consistent`, accumulating
`used_words`. -/
def consistentGo (c : CSP) (asn : Assignment) : List Word → List (Var × Word) → Bool
  | _, [] => true
  | used, (var, w) :: rest =>
      if entryOK c asn used var w then consistentGo c asn (used ++ [w]) rest
      else false

/-- `CrosswordCreator.consistent`: every entry uses a fresh word of the right
length and agrees with its assigned neighbors. -/
def consistent (c : CSP) (asn : Assignment) : Bool :=
  consistentGo c asn [] asn

/-- Python's `min(dict, key=dict.get)`: the first key attaining the minimal
value, scanning left to right and replacing only on strictly smaller. -/
def firstMinBy {α : Type} : List (α × Nat) → Option (α × Nat)
  | [] => none
  | p :: rest =>
      match firstMinBy rest with
      | none => some p
      | some q => if q.2 < p.2 then some q else some p

/-- Python's `max(dict, key=dict.get)`: the first key attaining the maximal
value. -/
def firstMaxBy {α : Type} : List (α × Nat) → Option (α × Nat)
  | [] => none
  | p :: rest =>
      match firstMaxBy rest with
      | none => some p
      | some q => if q.2 > p.2 then some q else some p

/-- The per-word counter built by `order_domain_values`: over every
unassigned neighbor, count that neighbor's candidates disagreeing with `w`
at the overlap offsets.  Neighbors always carry an overlap entry, so the
`none` branch is unreachable. -/
def conflictCount (c : CSP) (d : Domains) (var : Var) (asn : Assignment) (w : Word) : Nat :=
  ((neighbors c var).filter (fun n => !(assignedB asn n))).foldl
    (fun acc n =>
      match c.overlaps var n with
      | some ov => acc + ((d n).filter (fun nw => !(charAt w ov.1 == charAt nw ov.2))).length
      | none => acc)
    0

/-- The extraction loop of `order_domain_values`: repeatedly pop the first
key of minimal count (Python's stable `min` over the dict) and append it. -/
def extractMins : Nat → List (Word × Nat) → List Word
  | 0, _ => []
  | fuel + 1, l =>
      match firstMinBy l with
      | none => []
      | some q => q.1 :: extractMins fuel (l.filter (fun p => p.1 != q.1))

/-- `CrosswordCreator.order_domain_values`: the candidates of `var` ordered
ascending by the number of conflicts they cause among unassigned neighbors. -/
def order_domain_values (c : CSP) (d : Domains) (var : Var) (asn : Assignment) : List Word :=
  let unordered := (d var).map (fun w => (w, conflictCount c d var asn w))
  extractMins unordered.length unordered

/-- The extraction loop of `select_unassigned_variable`: pop first-minimal
count variables one at a time; the first pop fixes `min_domains` (sentinel
`-1`); later pops append only while tied with it, else break.  Each kept
variable is stored with its neighbor count. -/
def selectLoop (c : CSP) : Nat → List (Var × Nat) → Int → List (Var × Nat) → List (Var × Nat)
  | 0, _, _, opts => opts
  | fuel + 1, unassigned, minDomains, opts =>
      match firstMinBy unassigned with
      | none => opts
      | some q =>
          let rest := unassigned.filter (fun p => p.1 != q.1)
          if minDomains = -1 then
            selectLoop c fuel rest (q.2 : Int) (opts ++ [(q.1, (neighbors c q.1).length)])
          else if minDomains = (q.2 : Int) then
            selectLoop c fuel rest minDomains (opts ++ [(q.1, (neighbors c q.1).length)])
          else opts

/-- `CrosswordCreator.select_unassigned_variable`: among unassigned
variables, those of minimal domain size, tie-broken by maximal neighbor
count (first in iteration order on further ties).  `none` models the
`ValueError` of `max` on an empty dict, which the search never triggers. -/
def select_unassigned_variable (c : CSP) (d : Domains) (asn : Assignment) : Option Var :=
  let unassigned := (c.vars.filter (fun v => !(assignedB asn v))).map
    (fun v => (v, (d v).length))
  let opts := selectLoop c unassigned.length unassigned (-1) []
  (firstMaxBy opts).map Prod.fst

/-- The candidate loop of `CrosswordCreator.backtrack`: try each word in
order; tentatively extend the assignment; on an inconsistent extension undo
and continue; otherwise recurse through `bt` and keep the first success.
The domain store is threaded through the recursion. -/
def tryWords (c : CSP) (bt : Domains → Assignment → Option Assignment × Domains)
    (var : Var) (asn : Assignment) : Domains → List Word → Option Assignment × Domains
  | d, [] => (none, d)
  | d, w :: ws =>
      let asn' := asn ++ [(var, w)]
      if consistent c asn' then
        match bt d asn' with
        | (some a, d') => (some a, d')
        | (none, d') => tryWords c bt var asn d' ws
      else tryWords c bt var asn d ws

/-- `CrosswordCreator.backtrack` with the store threaded and an explicit
recursion-depth fuel.  Each recursive call assigns one more unassigned
variable, so fuel `unassignedCount + 1` suffices (`backtrack_fuel_stable`);
the zero-fuel branch is never reached. -/
def backtrackS (c : CSP) : Nat → Domains → Assignment → Option Assignment × Domains
  | 0, d, _ => (none, d)
  | fuel + 1, d, asn =>
      if asn.length = c.vars.length then (some asn, d)
      else
        match select_unassigned_variable c d asn with
        | none => (none, d)
        | some var =>
            tryWords c (fun d' a' => backtrackS c fuel d' a') var asn d
              (order_domain_values c d var asn)

/-- Number of variables not yet in the assignment. -/
def unassignedCount (c : CSP) (asn : Assignment) : Nat :=
  (c.vars.filter (fun v => !(assignedB asn v))).length

/-- `CrosswordCreator.backtrack` (result only; the store is read-only during
search, see the frame theorem). -/
def backtrack (c : CSP) (d : Domains) (asn : Assignment) : Option Assignment :=
  (backtrackS c (unassignedCount c asn + 1) d asn).1

/-- `CrosswordCreator.solve`: node consistency, then `ac3` — whose boolean
result is discarded — then backtracking search from the empty assignment on
the store as pruned by propagation. -/
def solve (c : CSP) : Option Assignment :=
  let d1 := enforce_node_consistency c (initialDomains c)
  let r := ac3 c none d1
  backtrack c r.2 []

/-- `solve` together with a flag recording whether the backtracking search
was invoked: the body of `solve` evaluates `self.backtrack(dict())`
unconditionally — there is no branch on the result of `ac3` — so the flag
is constantly `true`. -/
def solveTraced (c : CSP) : Option Assignment × Bool :=
  let d1 := enforce_node_consistency c (initialDomains c)
  let r := ac3 c none d1
  (backtrack c r.2 [], true)

/-! ### Concrete puzzle instances used as witnesses and counterexamples -/

/-- Across slot of a cross-shaped grid: row 1, columns 0-2. -/
def varA : Var := ⟨1, 0, Direction.across, 3⟩

/-- Down slot of the cross-shaped grid: column 1, rows 0-2. -/
def varD3 : Var := ⟨0, 1, Direction.down, 3⟩

/-- Down slot of length 4: column 1, rows 0-3. -/
def varD4 : Var := ⟨0, 1, Direction.down, 4⟩

/-- Top across slot of a C-shaped grid: row 0, columns 0-2. -/
def varT : Var := ⟨0, 0, Direction.across, 3⟩

/-- Left down slot of the C-shaped grid: column 0, rows 0-2. -/
def varL : Var := ⟨0, 0, Direction.down, 3⟩

/-- Bottom across slot of the C-shaped grid: row 2, columns 0-2. -/
def varB : Var := ⟨2, 0, Direction.across, 3⟩

def wCAT : Word := ['c', 'a', 't']

def wCAR : Word := ['c', 'a', 'r']

def wDOG : Word := ['d', 'o', 'g']

def wDOGS : Word := ['d', 'o', 'g', 's']

def wDEN : Word := ['d', 'e', 'n']

def wTIP : Word := ['t', 'i', 'p']

/-- Cross-shaped satisfiable instance: slots `varA`/`varD3` crossing at grid
cell (1,1), i.e. offset 1 into each word; words cat and car. -/
def CW : CSP where
  vars := [varA, varD3]
  overlaps := fun x y =>
    if x = varA ∧ y = varD3 then some (1, 1)
    else if x = varD3 ∧ y = varA then some (1, 1)
    else none
  words := [wCAT, wCAR]

/-- Cross-shaped unsatisfiable-by-propagation instance: `varA` (length 3)
and `varD4` (length 4) crossing at cell (1,1); after node consistency the
slots hold cat and dogs, which disagree at the crossing, so AC-3 wipes out
the across domain. -/
def CDOG : CSP where
  vars := [varA, varD4]
  overlaps := fun x y =>
    if x = varA ∧ y = varD4 then some (1, 1)
    else if x = varD4 ∧ y = varA then some (1, 1)
    else none
  words := [wCAT, wDOGS]

/-- C-shaped instance (rows 0 and 2 fully open, cell (1,0) open): the down
slot `varL` meets `varT` at cell (0,0) — offsets (0,0) — and `varB` at cell
(2,0) — offsets (2,0).  `varT` and `varB` do not intersect. -/
def CEX : CSP where
  vars := [varT, varL, varB]
  overlaps := fun x y =>
    if x = varT ∧ y = varL then some (0, 0)
    else if x = varL ∧ y = varT then some (0, 0)
    else if x = varL ∧ y = varB then some (2, 0)
    else if x = varB ∧ y = varL then some (0, 2)
    else none
  words := [wDEN, wCAT, wDOG, wTIP]

/-- The unassigned-variable list built by `select_unassigned_variable`. -/
def unList (c : CSP) (d : Domains) (asn : Assignment) : List (Var × Nat) :=
  (c.vars.filter (fun v => !(assignedB asn v))).map (fun v => (v, (d v).length))

/-- Search invariant: keys are duplicate-free instance variables and every
assigned word lies in the variable's domain. -/
def InvA (c : CSP) (d : Domains) (asn : Assignment) : Prop :=
  (asn.map Prod.fst).Nodup ∧ (∀ p ∈ asn, p.1 ∈ c.vars) ∧ ∀ p ∈ asn, p.2 ∈ d p.1

/-! ### Claim-level (specification-side) predicates

These are written from the wording of the specification claims, to be
compared with the behavior of the code-derived functions above. -/

/-- Written from the claim: the assignment assigns a word to every
variable. -/
def SpecComplete (c : CSP) (a : Assignment) : Prop :=
  ∀ v ∈ c.vars, ∃ p ∈ a, p.1 = v

/-- Written from the claim: one ordered pair of assigned entries agrees at
its overlap offsets (trivially if the pair has no overlap entry). -/
def specPairOK (c : CSP) (p q : Var × Word) : Bool :=
  match c.overlaps p.1 q.1 with
  | some ov => charAt p.2 ov.1 == charAt q.2 ov.2
  | none => true

/-- Written from the claim: no word appears for two variables, every
assigned word's length equals its variable's length, and every pair of
assigned neighboring variables agrees at their overlap offsets. -/
def SpecConsistent (c : CSP) (a : Assignment) : Prop :=
  (∀ p ∈ a, ∀ q ∈ a, p.1 ≠ q.1 → p.2 ≠ q.2) ∧
  (∀ p ∈ a, p.1.length = p.2.length) ∧
  (∀ p ∈ a, ∀ q ∈ a, q.1 ∈ neighbors c p.1 → specPairOK c p q = true)

/-! ### Helper lemmas: stable min/max extraction -/

theorem firstMinBy_mem {α : Type} {l : List (α × Nat)} {q : α × Nat}
    (h : firstMinBy l = some q) : q ∈ l := by
  induction l with
  | nil => simp [firstMinBy] at h
  | cons p rest ih =>
      simp only [firstMinBy] at h
      cases hr : firstMinBy rest with
      | none => rw [hr] at h; simp only [Option.some.injEq] at h; simp [h]
      | some r =>
          rw [hr] at h
          by_cases hlt : r.2 < p.2
          · simp only [if_pos hlt, Option.some.injEq] at h
            exact List.mem_cons_of_mem _ (ih (h ▸ hr))
          · simp only [if_neg hlt, Option.some.injEq] at h
            simp [h]

theorem firstMinBy_ne_none {α : Type} {p : α × Nat} {rest : List (α × Nat)} :
    firstMinBy (p :: rest) ≠ none := by
  simp only [firstMinBy]
  cases firstMinBy rest with
  | none => simp
  | some q => by_cases hlt : q.2 < p.2 <;> simp [hlt]

theorem firstMinBy_le {α : Type} :
    ∀ {l : List (α × Nat)} {q : α × Nat}, firstMinBy l = some q →
      ∀ p ∈ l, q.2 ≤ p.2 := by
  intro l
  induction l with
  | nil => intro q h; simp [firstMinBy] at h
  | cons p rest ih =>
      intro q h r hr
      simp only [firstMinBy] at h
      cases hm : firstMinBy rest with
      | none =>
          rw [hm] at h
          simp only [Option.some.injEq] at h
          subst h
          cases rest with
          | nil =>
              rcases List.mem_cons.mp hr with h1 | h1
              · subst h1; omega
              · simp at h1
          | cons a b => exact absurd hm firstMinBy_ne_none
      | some m =>
          rw [hm] at h
          have hrest := ih hm
          by_cases hlt : m.2 < p.2
          · simp only [if_pos hlt, Option.some.injEq] at h
            subst h
            rcases List.mem_cons.mp hr with h1 | h1
            · subst h1; omega
            · exact hrest r h1
          · simp only [if_neg hlt, Option.some.injEq] at h
            subst h
            rcases List.mem_cons.mp hr with h1 | h1
            · subst h1; omega
            · have := hrest r h1; omega

theorem firstMinBy_isSome {α : Type} {l : List (α × Nat)} (h : l ≠ []) :
    (firstMinBy l).isSome = true := by
  cases l with
  | nil => exact absurd rfl h
  | cons p rest =>
      simp only [firstMinBy]
      cases firstMinBy rest with
      | none => rfl
      | some q => by_cases hlt : q.2 < p.2 <;> simp [hlt]

theorem firstMaxBy_mem {α : Type} {l : List (α × Nat)} {q : α × Nat}
    (h : firstMaxBy l = some q) : q ∈ l := by
  induction l with
  | nil => simp [firstMaxBy] at h
  | cons p rest ih =>
      simp only [firstMaxBy] at h
      cases hr : firstMaxBy rest with
      | none => rw [hr] at h; simp only [Option.some.injEq] at h; simp [h]
      | some r =>
          rw [hr] at h
          by_cases hlt : r.2 > p.2
          · simp only [if_pos hlt, Option.some.injEq] at h
            exact List.mem_cons_of_mem _ (ih (h ▸ hr))
          · simp only [if_neg hlt, Option.some.injEq] at h
            simp [h]

theorem firstMaxBy_isSome {α : Type} {l : List (α × Nat)} (h : l ≠ []) :
    (firstMaxBy l).isSome = true := by
  cases l with
  | nil => exact absurd rfl h
  | cons p rest =>
      simp only [firstMaxBy]
      cases firstMaxBy rest with
      | none => rfl
      | some q => by_cases hlt : q.2 > p.2 <;> simp [hlt]

theorem extractMins_mem {fuel : Nat} :
    ∀ {l : List (Word × Nat)} {w : Word}, w ∈ extractMins fuel l →
      ∃ k, (w, k) ∈ l := by
  induction fuel with
  | zero => intro l w h; simp [extractMins] at h
  | succ n ih =>
      intro l w h
      simp only [extractMins] at h
      cases hm : firstMinBy l with
      | none => rw [hm] at h; simp at h
      | some q =>
          rw [hm] at h
          rcases List.mem_cons.mp h with h1 | h1
          · exact ⟨q.2, h1 ▸ firstMinBy_mem hm⟩
          · rcases ih h1 with ⟨k, hk⟩
            exact ⟨k, (List.mem_filter.mp hk).1⟩

/-- Words produced by `order_domain_values` come from the domain of `var`. -/
theorem order_domain_values_subset {c : CSP} {d : Domains} {var : Var}
    {asn : Assignment} {w : Word} (h : w ∈ order_domain_values c d var asn) :
    w ∈ d var := by
  simp only [order_domain_values] at h
  rcases extractMins_mem h with ⟨k, hk⟩
  rcases List.mem_map.mp hk with ⟨u, hu, he⟩
  cases he
  exact hu

/-- With an empty domain `order_domain_values` yields no candidates. -/
theorem order_domain_values_nil {c : CSP} {d : Domains} {var : Var}
    {asn : Assignment} (h : d var = []) :
    order_domain_values c d var asn = [] := by
  simp [order_domain_values, h, extractMins]

/-! ### Helper lemmas: variable selection -/

theorem selectLoop_mem {c : CSP} :
    ∀ {n : Nat} {un : List (Var × Nat)} {minD : Int} {opts : List (Var × Nat)}
      {p : Var × Nat}, p ∈ selectLoop c n un minD opts →
      p ∈ opts ∨ ∃ k, (p.1, k) ∈ un := by
  intro n
  induction n with
  | zero => intro un minD opts p h; exact Or.inl h
  | succ m ih =>
      intro un minD opts p h
      cases hm : firstMinBy un with
      | none => simp only [selectLoop, hm] at h; exact Or.inl h
      | some q =>
          simp only [selectLoop, hm] at h
          have hq := firstMinBy_mem hm
          have step : ∀ hrec : p ∈ selectLoop c m (un.filter (fun r => r.1 != q.1))
              ((q.2 : Int)) (opts ++ [(q.1, (neighbors c q.1).length)]),
              p ∈ opts ∨ ∃ k, (p.1, k) ∈ un := by
            intro hrec
            rcases ih hrec with h2 | h2
            · rcases List.mem_append.mp h2 with h3 | h3
              · exact Or.inl h3
              · simp only [List.mem_singleton] at h3
                exact Or.inr ⟨q.2, by rw [h3]; exact hq⟩
            · rcases h2 with ⟨k, hk⟩
              exact Or.inr ⟨k, (List.mem_filter.mp hk).1⟩
          have step2 : ∀ hrec : p ∈ selectLoop c m (un.filter (fun r => r.1 != q.1))
              minD (opts ++ [(q.1, (neighbors c q.1).length)]),
              p ∈ opts ∨ ∃ k, (p.1, k) ∈ un := by
            intro hrec
            rcases ih hrec with h2 | h2
            · rcases List.mem_append.mp h2 with h3 | h3
              · exact Or.inl h3
              · simp only [List.mem_singleton] at h3
                exact Or.inr ⟨q.2, by rw [h3]; exact hq⟩
            · rcases h2 with ⟨k, hk⟩
              exact Or.inr ⟨k, (List.mem_filter.mp hk).1⟩
          split_ifs at h with h1 h2
          · exact step h
          · exact step2 h
          · exact Or.inl h

theorem selectLoop_ne_nil {c : CSP} :
    ∀ {n : Nat} {un : List (Var × Nat)} {minD : Int} {opts : List (Var × Nat)},
      opts ≠ [] → selectLoop c n un minD opts ≠ [] := by
  intro n
  induction n with
  | zero => intro un minD opts h; exact h
  | succ m ih =>
      intro un minD opts h
      cases hm : firstMinBy un with
      | none => simp only [selectLoop, hm]; exact h
      | some q =>
          simp only [selectLoop, hm]
          split_ifs with h1 h2
          · exact ih (by simp)
          · exact ih (by simp)
          · exact h

/-- Once `min_domains` is pinned at `0`, every variable the loop adds has a
zero-valued entry in any superset `un₀` of the remaining worklist. -/
theorem selectLoop_zero {c : CSP} {un₀ : List (Var × Nat)} :
    ∀ {n : Nat} {un : List (Var × Nat)} {opts : List (Var × Nat)},
      (∀ p ∈ un, p ∈ un₀) → (∀ p ∈ opts, (p.1, 0) ∈ un₀) →
      ∀ p ∈ selectLoop c n un 0 opts, (p.1, 0) ∈ un₀ := by
  intro n
  induction n with
  | zero => intro un opts _ hopts p h; exact hopts p h
  | succ m ih =>
      intro un opts hun hopts p h
      cases hm : firstMinBy un with
      | none => simp only [selectLoop, hm] at h; exact hopts p h
      | some q =>
          simp only [selectLoop, hm] at h
          have step : ∀ hq2 : q.2 = 0,
              p ∈ selectLoop c m (un.filter (fun r => r.1 != q.1)) 0
                (opts ++ [(q.1, (neighbors c q.1).length)]) → (p.1, 0) ∈ un₀ := by
            intro hq2 h
            refine ih (fun r hr => hun r (List.mem_filter.mp hr).1) ?_ p h
            intro r hr
            rcases List.mem_append.mp hr with h3 | h3
            · exact hopts r h3
            · simp only [List.mem_singleton] at h3
              rw [h3]
              have := hun q (firstMinBy_mem hm)
              rw [← hq2]
              exact this
          split at h
          next h1 => simp at h1
          next =>
            split at h
            next h2 => exact step (by omega) h
            next => exact hopts p h

theorem select_eq (c : CSP) (d : Domains) (asn : Assignment) :
    select_unassigned_variable c d asn =
      (firstMaxBy (selectLoop c (unList c d asn).length (unList c d asn) (-1) [])).map
        Prod.fst := rfl

/-- Whatever `select_unassigned_variable` returns is an instance variable
not yet assigned. -/
theorem select_mem {c : CSP} {d : Domains} {asn : Assignment} {var : Var}
    (h : select_unassigned_variable c d asn = some var) :
    var ∈ c.vars ∧ assignedB asn var = false := by
  rw [select_eq] at h
  cases hx : firstMaxBy (selectLoop c (unList c d asn).length (unList c d asn) (-1) []) with
  | none => rw [hx] at h; simp at h
  | some ch =>
      rw [hx] at h
      have hch : ch.1 = var := by simpa using h
      subst hch
      have hmem := firstMaxBy_mem hx
      rcases selectLoop_mem hmem with h1 | h1
      · simp at h1
      · rcases h1 with ⟨k, hk⟩
        rcases List.mem_map.mp hk with ⟨v, hv, he⟩
        have hv' := List.mem_filter.mp hv
        have : v = ch.1 := congrArg Prod.fst he
        subst this
        exact ⟨hv'.1, by simpa using hv'.2⟩

/-- If some unassigned variable has an empty domain, the MRV selection picks
a variable with an empty domain. -/
theorem select_picks_empty {c : CSP} {d : Domains} {asn : Assignment} {v0 : Var}
    (hv : v0 ∈ c.vars) (hun : assignedB asn v0 = false) (hd : d v0 = []) :
    ∃ var, select_unassigned_variable c d asn = some var ∧ d var = [] := by
  have hv0 : (v0, 0) ∈ unList c d asn := by
    simp only [unList]
    refine List.mem_map.mpr ⟨v0, List.mem_filter.mpr ⟨hv, by simp [hun]⟩, ?_⟩
    simp [hd]
  have hne : unList c d asn ≠ [] := fun h => by rw [h] at hv0; simp at hv0
  -- every entry produced by the loop has a zero-valued entry in the worklist
  have hall : ∀ p ∈ selectLoop c (unList c d asn).length (unList c d asn) (-1) [],
      (p.1, 0) ∈ unList c d asn := by
    cases hl : unList c d asn with
    | nil => exact absurd hl hne
    | cons p0 rest =>
        intro p hp
        rw [List.length_cons] at hp
        cases hm : firstMinBy (p0 :: rest) with
        | none => exact absurd hm firstMinBy_ne_none
        | some q =>
            simp only [selectLoop, hm] at hp
            have hq0 : q.2 = 0 := by
              have := firstMinBy_le hm (v0, 0) (hl ▸ hv0)
              omega
            split_ifs at hp with h1
            · rw [hq0] at hp
              simp only [Nat.cast_zero] at hp
              refine hl ▸ selectLoop_zero ?_ ?_ p hp
              · intro r hr; exact hl ▸ (List.mem_filter.mp hr).1
              · intro r hr
                simp only [List.nil_append, List.mem_singleton] at hr
                rw [hr]
                have := firstMinBy_mem hm
                rw [← hq0]
                exact hl ▸ this
            · simp at h1
  have hne' : selectLoop c (unList c d asn).length (unList c d asn) (-1) [] ≠ [] := by
    cases hl : unList c d asn with
    | nil => exact absurd hl hne
    | cons p0 rest =>
        rw [List.length_cons]
        cases hm : firstMinBy (p0 :: rest) with
        | none => exact absurd hm firstMinBy_ne_none
        | some q =>
            simp only [selectLoop, hm]
            split_ifs with h1
            · exact selectLoop_ne_nil (by simp)
            · simp at h1
  cases hx : firstMaxBy (selectLoop c (unList c d asn).length (unList c d asn) (-1) []) with
  | none =>
      exfalso
      cases hll : selectLoop c (unList c d asn).length (unList c d asn) (-1) [] with
      | nil => exact hne' hll
      | cons a b =>
          have := firstMaxBy_isSome (l := a :: b) (by simp)
          rw [← hll, hx] at this
          simp at this
  | some ch =>
      refine ⟨ch.1, ?_, ?_⟩
      · rw [select_eq, hx]; rfl
      · have := hall ch (firstMaxBy_mem hx)
        rcases List.mem_map.mp this with ⟨v, hvf, he⟩
        have h1 : v = ch.1 := congrArg Prod.fst he
        have h2 : (d v).length = 0 := congrArg Prod.snd he
        rw [← h1]
        exact List.length_eq_zero.mp h2

/-! ### Helper lemmas: the domain store, revise, node consistency -/

theorem updateD_same (d : Domains) (x : Var) (l : List Word) : updateD d x l x = l := by
  simp [updateD]

theorem updateD_other {x v : Var} (d : Domains) (l : List Word) (h : v ≠ x) :
    updateD d x l v = d v := by
  simp [updateD, h]

/-- `revise` never adds a word to any domain. -/
theorem revise_sub {c : CSP} {x y : Var} {d : Domains} {v : Var} {w : Word}
    (h : w ∈ (revise c x y d).2 v) : w ∈ d v := by
  unfold revise at h
  cases ho : c.overlaps x y with
  | none => rw [ho] at h; exact h
  | some ov =>
      rw [ho] at h
      simp only [updateD] at h
      by_cases hv : v = x
      · rw [if_pos hv] at h
        exact hv ▸ (List.mem_filter.mp h).1
      · rw [if_neg hv] at h
        exact h

/-- `revise` touches no domain but `x`'s. -/
theorem revise_other {c : CSP} {x y : Var} {d : Domains} {v : Var} (h : v ≠ x) :
    (revise c x y d).2 v = d v := by
  unfold revise
  cases ho : c.overlaps x y with
  | none => rfl
  | some ov => exact updateD_other d _ h

/-- Characterization of the words kept in `domains[x]` by `revise` when an
overlap entry exists: exactly those with a match in `domains[y]`. -/
theorem revise_keep_iff {c : CSP} {x y : Var} {d : Domains} {ov : Nat × Nat}
    (ho : c.overlaps x y = some ov) (w : Word) :
    w ∈ (revise c x y d).2 x ↔ w ∈ d x ∧ hasMatch (d y) ov w = true := by
  unfold revise
  rw [ho]
  simp only [updateD_same]
  exact List.mem_filter

/-- `revise` reports a change exactly when some word of `domains[x]` has no
match in `domains[y]`. -/
theorem revise_changed_iff {c : CSP} {x y : Var} {d : Domains} {ov : Nat × Nat}
    (ho : c.overlaps x y = some ov) :
    (revise c x y d).1 = true ↔ ∃ w ∈ d x, hasMatch (d y) ov w = false := by
  unfold revise
  rw [ho]
  simp only [Bool.not_eq_true']
  rw [List.isEmpty_eq_false_iff_exists_mem]
  constructor
  · rintro ⟨w, hw⟩
    have := List.mem_filter.mp hw
    exact ⟨w, this.1, by simpa using this.2⟩
  · rintro ⟨w, hw, hm⟩
    exact ⟨w, List.mem_filter.mpr ⟨hw, by simp [hm]⟩⟩

/-- If `revise` reports no change it kept `domains[x]` intact. -/
theorem revise_false_unchanged {c : CSP} {x y : Var} {d : Domains}
    (h : (revise c x y d).1 = false) : ∀ v, (revise c x y d).2 v = d v := by
  intro v
  by_cases hv : v = x
  · rw [hv]
    cases ho : c.overlaps x y with
    | none => unfold revise; rw [ho]
    | some ov =>
        have hne : ¬ ∃ w ∈ d x, hasMatch (d y) ov w = false := by
          intro hex
          rw [← revise_changed_iff ho] at hex
          rw [h] at hex
          exact Bool.false_ne_true hex
        have hall : ∀ w ∈ d x, hasMatch (d y) ov w = true := by
          intro w hw
          by_contra hx
          exact hne ⟨w, hw, by simpa using hx⟩
        unfold revise
        rw [ho]
        simp only [updateD_same]
        exact List.filter_eq_self.mpr hall
  · exact revise_other hv

/-- The node-consistency loop never adds a word to any domain. -/
theorem encFold_sub :
    ∀ (vs : List Var) (d : Domains) (v : Var) (w : Word),
      w ∈ vs.foldl encStep d v → w ∈ d v := by
  intro vs
  induction vs with
  | nil => intro d v w h; exact h
  | cons u rest ih =>
      intro d v w h
      rw [List.foldl_cons] at h
      have h2 := ih (encStep d u) v w h
      simp only [encStep, updateD] at h2
      by_cases hv : v = u
      · rw [if_pos hv] at h2
        exact hv ▸ (List.mem_filter.mp h2).1
      · rw [if_neg hv] at h2
        exact h2

/-- Variables outside the loop's list keep their domain. -/
theorem encFold_notMem :
    ∀ (vs : List Var) (d : Domains) (v : Var), v ∉ vs →
      vs.foldl encStep d v = d v := by
  intro vs
  induction vs with
  | nil => intro d v _; rfl
  | cons u rest ih =>
      intro d v hv
      rw [List.foldl_cons]
      rw [ih (encStep d u) v (fun h => hv (List.mem_cons_of_mem u h))]
      simp only [encStep]
      exact updateD_other _ _ (fun h => hv (h ▸ List.mem_cons_self u rest))

/-- On a duplicate-free variable list the loop leaves each listed variable
with exactly its length-filtered domain. -/
theorem encFold_mem :
    ∀ (vs : List Var), vs.Nodup → ∀ (d : Domains) (v : Var), v ∈ vs →
      vs.foldl encStep d v = (d v).filter (fun w => w.length == v.length) := by
  intro vs
  induction vs with
  | nil => intro _ d v hv; simp at hv
  | cons u rest ih =>
      intro hnd d v hv
      rw [List.foldl_cons]
      rcases List.mem_cons.mp hv with h1 | h1
      · subst h1
        rw [encFold_notMem rest (encStep d v) v (List.Nodup.not_mem hnd)]
        simp [encStep, updateD_same]
      · rw [ih (List.Nodup.of_cons hnd) (encStep d u) v h1]
        have hne : v ≠ u := by
          intro he
          exact (List.Nodup.not_mem hnd) (he ▸ h1)
        simp only [encStep]
        rw [updateD_other _ _ hne]

/-! ### Helper lemmas: the AC-3 worklist loop -/

/-- The `ac3` worklist loop never adds a word to any domain. -/
theorem ac3go_sub {c : CSP} :
    ∀ {fuel : Nat} {arcs : List (Var × Var)} {d : Domains} {v : Var} {w : Word},
      w ∈ (ac3go c fuel arcs d).2 v → w ∈ d v := by
  intro fuel
  induction fuel with
  | zero =>
      intro arcs d v w h
      cases arcs with
      | nil => exact h
      | cons a rest => exact h
  | succ n ih =>
      intro arcs d v w h
      cases arcs with
      | nil => exact h
      | cons a rest =>
          rcases a with ⟨x, y⟩
          simp only [ac3go] at h
          split_ifs at h with h1 h2
          · exact revise_sub h
          · exact revise_sub (ih h)
          · exact revise_sub (ih h)

/-- If the `ac3` worklist loop reports failure, the domain of some instance
variable is empty in the returned store. -/
theorem ac3go_false_empty {c : CSP} :
    ∀ {fuel : Nat} {arcs : List (Var × Var)} {d : Domains},
      (∀ a ∈ arcs, a.1 ∈ c.vars) → (ac3go c fuel arcs d).1 = false →
      ∃ x ∈ c.vars, (ac3go c fuel arcs d).2 x = [] := by
  intro fuel
  induction fuel with
  | zero =>
      intro arcs d _ h
      cases arcs with
      | nil => simp [ac3go] at h
      | cons a rest => simp [ac3go] at h
  | succ n ih =>
      intro arcs d hfst h
      cases arcs with
      | nil => simp [ac3go] at h
      | cons a rest =>
          rcases a with ⟨x, y⟩
          simp only [ac3go] at h ⊢
          split_ifs at h ⊢ with h1 h2
          · refine ⟨x, hfst (x, y) (List.mem_cons_self _ _), ?_⟩
            exact List.length_eq_zero.mp h2
          · refine ih ?_ h
            intro a ha
            rcases List.mem_append.mp ha with h3 | h3
            · rcases List.mem_map.mp h3 with ⟨z, _, he⟩
              rw [← he]
              exact hfst (x, y) (List.mem_cons_self _ _)
            · exact hfst a (List.mem_cons_of_mem _ h3)
          · refine ih ?_ h
            intro a ha
            exact hfst a (List.mem_cons_of_mem _ ha)

/-- `ac3` itself never adds a word to any domain. -/
theorem ac3_sub {c : CSP} {arcs : Option (List (Var × Var))} {d : Domains}
    {v : Var} {w : Word} (h : w ∈ (ac3 c arcs d).2 v) : w ∈ d v :=
  ac3go_sub h

/-- Every arc of the default worklist starts at an instance variable. -/
theorem defaultArcs_fst {c : CSP} {a : Var × Var} (h : a ∈ defaultArcs c) :
    a.1 ∈ c.vars := by
  simp only [defaultArcs] at h
  rcases List.mem_flatMap.mp h with ⟨x, hx, hm⟩
  rcases List.mem_map.mp hm with ⟨z, _, he⟩
  rw [← he]
  exact hx

/-- If `ac3` reports failure, some instance variable's domain is empty in
the returned store. -/
theorem ac3_false_empty {c : CSP} {arcs : Option (List (Var × Var))} {d : Domains}
    (hfst : ∀ a ∈ resolveArcs c arcs, a.1 ∈ c.vars)
    (h : (ac3 c arcs d).1 = false) :
    ∃ x ∈ c.vars, (ac3 c arcs d).2 x = [] :=
  ac3go_false_empty hfst h

/-- A change reported by `revise` strictly shrinks `domains[x]`. -/
theorem revise_shrink {c : CSP} {x y : Var} {d : Domains}
    (hch : (revise c x y d).1 = true) :
    ((revise c x y d).2 x).length < (d x).length := by
  cases hov : c.overlaps x y with
  | none =>
      have hf : (revise c x y d).1 = false := by simp [revise, hov]
      rw [hf] at hch
      exact Bool.noConfusion hch
  | some ov =>
      rcases (revise_changed_iff hov).mp hch with ⟨w, hw, hm⟩
      have he : (revise c x y d).2 x = (d x).filter (fun u => hasMatch (d y) ov u) := by
        simp [revise, hov, updateD_same]
      rw [he]
      exact List.length_filter_lt_length_iff_exists.mpr ⟨w, hw, by simp [hm]⟩

theorem ac3Requeue_fst {c : CSP} {x y : Var} {p : Var × Var}
    (h : p ∈ ac3Requeue c x y) : p.1 = x := by
  simp only [ac3Requeue, List.mem_map] at h
  rcases h with ⟨z, _, he⟩
  rw [← he]

theorem ac3Requeue_length {c : CSP} (x y : Var) :
    (ac3Requeue c x y).length ≤ c.vars.length := by
  simp only [ac3Requeue, List.length_map, List.length_reverse]
  calc (List.filter (fun z => z != y) (neighbors c x)).length
      ≤ (neighbors c x).length := List.length_filter_le _ _
    _ ≤ c.vars.length := by
        simp only [neighbors]
        exact List.length_filter_le _ _

/-- The measure drops across an iteration that changed a domain without
emptying it. -/
theorem ac3Measure_dec_change {c : CSP} {x y : Var} (rest : List (Var × Var))
    {d : Domains} (hch : (revise c x y d).1 = true) :
    ac3Measure c (ac3Requeue c x y ++ rest) (revise c x y d).2 <
      ac3Measure c ((x, y) :: rest) d := by
  unfold ac3Measure
  have hx : x ∈ c.vars.toFinset ∪ ((((x, y) :: rest)).map Prod.fst).toFinset := by
    refine Finset.mem_union_right _ ?_
    rw [List.map_cons]
    exact List.mem_toFinset.mpr (List.mem_cons_self _ _)
  have hQP : c.vars.toFinset ∪ (((ac3Requeue c x y ++ rest)).map Prod.fst).toFinset ⊆
      c.vars.toFinset ∪ ((((x, y) :: rest)).map Prod.fst).toFinset := by
    intro v hv
    rcases Finset.mem_union.mp hv with h1 | h1
    · exact Finset.mem_union_left _ h1
    · rcases List.mem_map.mp (List.mem_toFinset.mp h1) with ⟨p, hp, he⟩
      rcases List.mem_append.mp hp with h2 | h2
      · refine Finset.mem_union_right _ ?_
        rw [List.map_cons]
        refine List.mem_toFinset.mpr ?_
        rw [← he, ac3Requeue_fst h2]
        exact List.mem_cons_self _ _
      · refine Finset.mem_union_right _ ?_
        rw [List.map_cons]
        refine List.mem_toFinset.mpr ?_
        rw [← he]
        exact List.mem_cons_of_mem _ (List.mem_map_of_mem Prod.fst h2)
  have hsum : ((c.vars.toFinset ∪ (((ac3Requeue c x y ++ rest)).map Prod.fst).toFinset).sum
        fun v => ((revise c x y d).2 v).length) + 1 ≤
      ((c.vars.toFinset ∪ ((((x, y) :: rest)).map Prod.fst).toFinset).sum
        fun v => (d v).length) := by
    have s1 := Finset.sum_le_sum_of_subset hQP
      (f := fun v => ((revise c x y d).2 v).length)
    have s2 := Finset.sum_eq_sum_diff_singleton_add hx
      (fun v => ((revise c x y d).2 v).length)
    have s3 := Finset.sum_eq_sum_diff_singleton_add hx (fun v => (d v).length)
    have s4 : ((c.vars.toFinset ∪ ((((x, y) :: rest)).map Prod.fst).toFinset) \ {x}).sum
        (fun v => ((revise c x y d).2 v).length) =
        ((c.vars.toFinset ∪ ((((x, y) :: rest)).map Prod.fst).toFinset) \ {x}).sum
        (fun v => (d v).length) := by
      refine Finset.sum_congr rfl ?_
      intro v hv
      have hvne : v ≠ x := by
        have := (Finset.mem_sdiff.mp hv).2
        simpa using this
      rw [revise_other hvne]
    have s5 := revise_shrink hch
    simp only [] at s1 s2 s3 s4
    omega
  have hlen : (ac3Requeue c x y ++ rest).length ≤ c.vars.length + rest.length := by
    rw [List.length_append]
    have := ac3Requeue_length (c := c) x y
    omega
  set A := ((c.vars.toFinset ∪ (((ac3Requeue c x y ++ rest)).map Prod.fst).toFinset).sum
    fun v => ((revise c x y d).2 v).length)
  set B := ((c.vars.toFinset ∪ ((((x, y) :: rest)).map Prod.fst).toFinset).sum
    fun v => (d v).length)
  have h1 : (A + 1) * (c.vars.length + 1) ≤ B * (c.vars.length + 1) :=
    Nat.mul_le_mul_right _ hsum
  have h2 : (A + 1) * (c.vars.length + 1) = A * (c.vars.length + 1) + (c.vars.length + 1) := by
    ring
  simp only [List.length_cons]
  omega

/-- The measure drops across an iteration that changed nothing (one arc was
consumed, every domain kept). -/
theorem ac3Measure_dec_nochange {c : CSP} {x y : Var} (rest : List (Var × Var))
    {d : Domains} (hch : (revise c x y d).1 = false) :
    ac3Measure c rest (revise c x y d).2 < ac3Measure c ((x, y) :: rest) d := by
  unfold ac3Measure
  have hd := revise_false_unchanged hch
  have hsum : ((c.vars.toFinset ∪ ((rest.map Prod.fst)).toFinset).sum
        fun v => ((revise c x y d).2 v).length) ≤
      ((c.vars.toFinset ∪ ((((x, y) :: rest)).map Prod.fst).toFinset).sum
        fun v => (d v).length) := by
    have he : ((c.vars.toFinset ∪ ((rest.map Prod.fst)).toFinset).sum
        fun v => ((revise c x y d).2 v).length) =
        ((c.vars.toFinset ∪ ((rest.map Prod.fst)).toFinset).sum
        fun v => (d v).length) :=
      Finset.sum_congr rfl (fun v _ => by rw [hd v])
    rw [he]
    apply Finset.sum_le_sum_of_subset
    intro v hv
    rcases Finset.mem_union.mp hv with h1 | h1
    · exact Finset.mem_union_left _ h1
    · refine Finset.mem_union_right _ ?_
      rw [List.map_cons]
      exact List.mem_toFinset.mpr (List.mem_cons_of_mem _ (List.mem_toFinset.mp h1))
  have hmul := Nat.mul_le_mul_right (c.vars.length + 1) hsum
  simp only [List.length_cons]
  omega

/-- The loop's result is fuel-independent once the fuel exceeds the
measure: the zero-fuel branch of `ac3go` is unreachable from `ac3`. -/
theorem ac3go_fuel_stable {c : CSP} :
    ∀ {f g : Nat} {arcs : List (Var × Var)} {d : Domains},
      ac3Measure c arcs d < f → ac3Measure c arcs d < g →
      ac3go c f arcs d = ac3go c g arcs d := by
  intro f
  induction f with
  | zero => intro g arcs d hf _; exact absurd hf (by omega)
  | succ n ih =>
      intro g arcs d hf hg
      cases g with
      | zero => exact absurd hg (by omega)
      | succ m =>
          cases arcs with
          | nil => rfl
          | cons a rest =>
              rcases a with ⟨x, y⟩
              have hle : rest.length < ac3Measure c ((x, y) :: rest) d := by
                unfold ac3Measure
                simp only [List.length_cons]
                omega
              simp only [ac3go]
              split_ifs with h1 h2
              · rfl
              · have hdec := ac3Measure_dec_change rest h1
                exact ih (by omega) (by omega)
              · have hdec := ac3Measure_dec_nochange rest (by simpa using h1)
                exact ih (by omega) (by omega)

/-- Any fuel at least `ac3FuelBound` reproduces `ac3`'s run exactly. -/
theorem ac3_fuel_sufficient (c : CSP) (arcs : Option (List (Var × Var)))
    (d : Domains) (k : Nat) :
    ac3go c (ac3FuelBound c (resolveArcs c arcs) d + k) (resolveArcs c arcs) d =
      ac3 c arcs d := by
  unfold ac3 ac3FuelBound
  exact ac3go_fuel_stable (by omega) (by omega)

/-! ### Helper lemmas: the assignment consistency check -/

theorem assignedB_false_iff {asn : Assignment} {v : Var} :
    assignedB asn v = false ↔ ∀ p ∈ asn, p.1 ≠ v := by
  simp [assignedB]

theorem lookupA_of_mem {asn : Assignment} (hnd : (asn.map Prod.fst).Nodup)
    {v : Var} {w : Word} (hm : (v, w) ∈ asn) : lookupA asn v = some w := by
  induction asn with
  | nil => simp at hm
  | cons p rest ih =>
      rcases List.mem_cons.mp hm with h1 | h1
      · rw [← h1]
        simp [lookupA]
      · have hne : p.1 ≠ v := by
          intro he
          rw [List.map_cons] at hnd
          refine List.Nodup.not_mem hnd ?_
          rw [he]
          exact List.mem_map.mpr ⟨(v, w), h1, rfl⟩
        simp only [lookupA, if_neg hne]
        exact ih (List.Nodup.of_cons (List.map_cons Prod.fst p rest ▸ hnd)) h1

theorem entryOK_true {c : CSP} {asn : Assignment} {used : List Word} {var : Var}
    {w : Word} (h : entryOK c asn used var w = true) :
    w ∉ used ∧ var.length = w.length ∧
      ∀ n ∈ neighbors c var, ∀ nw, lookupA asn n = some nw →
        ∀ ov, c.overlaps var n = some ov → charAt w ov.1 = charAt nw ov.2 := by
  unfold entryOK at h
  split_ifs at h with h1 h2
  refine ⟨by simpa using h1, by simpa using h2, ?_⟩
  intro n hn nw hlk ov hov
  have h3 := List.all_eq_true.mp h n hn
  rw [hlk, hov] at h3
  exact eq_of_beq h3

theorem consistentGo_props {c : CSP} {asn : Assignment} :
    ∀ {l : List (Var × Word)} {used : List Word}, consistentGo c asn used l = true →
      l.Pairwise (fun p q => p.2 ≠ q.2) ∧
      ∀ p ∈ l, p.2 ∉ used ∧ p.1.length = p.2.length ∧
        (∀ n ∈ neighbors c p.1, ∀ nw, lookupA asn n = some nw →
          ∀ ov, c.overlaps p.1 n = some ov → charAt p.2 ov.1 = charAt nw ov.2) := by
  intro l
  induction l with
  | nil => intro used _; exact ⟨List.Pairwise.nil, by simp⟩
  | cons p rest ih =>
      rcases p with ⟨var, w⟩
      intro used h
      simp only [consistentGo] at h
      split_ifs at h with h1
      have hrest := ih h
      have hp := entryOK_true h1
      constructor
      · refine List.Pairwise.cons ?_ hrest.1
        intro q hq he
        have := (hrest.2 q hq).1
        exact this (by
          rw [← he]
          exact List.mem_append_right _ (List.mem_singleton.mpr rfl))
      · intro q hq
        rcases List.mem_cons.mp hq with h2 | h2
        · rw [h2]
          exact ⟨hp.1, hp.2.1, hp.2.2⟩
        · have := hrest.2 q h2
          exact ⟨fun hm => this.1 (List.mem_append_left _ hm), this.2⟩

/-! ### Helper lemmas: the backtracking search -/

/-- The candidate loop returns the store it was given whenever the recursive
search does. -/
theorem tryWords_frame {c : CSP} {bt : Domains → Assignment → Option Assignment × Domains}
    (hbt : ∀ d a, (bt d a).2 = d) (var : Var) (asn : Assignment) :
    ∀ (ws : List Word) (d : Domains), (tryWords c bt var asn d ws).2 = d := by
  intro ws
  induction ws with
  | nil => intro d; rfl
  | cons w rest ih =>
      intro d
      simp only [tryWords]
      split_ifs with h1
      · rcases hb : bt d (asn ++ [(var, w)]) with ⟨r, d2⟩
        have hd2 : d2 = d := by
          have := hbt d (asn ++ [(var, w)])
          rw [hb] at this
          exact this
        cases r with
        | some a => simp [hb, hd2]
        | none => simp [hb, hd2, ih]
      · exact ih d

/-- The search never writes the domain store. -/
theorem backtrackS_frame {c : CSP} :
    ∀ (fuel : Nat) (d : Domains) (asn : Assignment), (backtrackS c fuel d asn).2 = d := by
  intro fuel
  induction fuel with
  | zero => intro d asn; rfl
  | succ n ih =>
      intro d asn
      simp only [backtrackS]
      split_ifs with h1
      · rfl
      · cases hs : select_unassigned_variable c d asn with
        | none => simp only [hs]
        | some var =>
            simp only [hs]
            exact tryWords_frame (fun d' a' => ih d' a') var asn _ d

/-- The candidate loop only depends on the recursive search's behavior on
the extensions it tries. -/
theorem tryWords_congr {c : CSP}
    {bt₁ bt₂ : Domains → Assignment → Option Assignment × Domains}
    {var : Var} {asn : Assignment}
    (h : ∀ (d : Domains) (w : Word), bt₁ d (asn ++ [(var, w)]) = bt₂ d (asn ++ [(var, w)])) :
    ∀ (ws : List Word) (d : Domains),
      tryWords c bt₁ var asn d ws = tryWords c bt₂ var asn d ws := by
  intro ws
  induction ws with
  | nil => intro d; rfl
  | cons w rest ih =>
      intro d
      simp only [tryWords]
      split_ifs with h1
      · rw [← h d w]
        rcases hb : bt₁ d (asn ++ [(var, w)]) with ⟨r, d2⟩
        cases r with
        | some a => simp [hb]
        | none => simp [hb, ih]
      · exact ih d

theorem assignedB_append_single {asn : Assignment} {var v : Var} {w : Word} :
    assignedB (asn ++ [(var, w)]) v = (assignedB asn v || (var == v)) := by
  simp [assignedB, List.any_append]

/-- Assigning a fresh instance variable strictly shrinks the unassigned
count. -/
theorem uc_append_lt {c : CSP} {asn : Assignment} {var : Var} {w : Word}
    (hv : var ∈ c.vars) (hn : assignedB asn var = false) :
    unassignedCount c (asn ++ [(var, w)]) < unassignedCount c asn := by
  unfold unassignedCount
  have hfe : (c.vars.filter (fun v => !(assignedB (asn ++ [(var, w)]) v))) =
      (c.vars.filter (fun v => !(assignedB asn v))).filter (fun v => !(var == v)) := by
    rw [List.filter_filter]
    apply List.filter_congr
    intro v _
    simp [assignedB_append_single, Bool.not_or, Bool.and_comm]
  rw [hfe]
  apply List.length_filter_lt_length_iff_exists.mpr
  refine ⟨var, List.mem_filter.mpr ⟨hv, by simp [hn]⟩, by simp⟩

/-- The result of the search does not depend on the fuel once the fuel
exceeds the number of unassigned variables: the recursion depth is bounded
by the number of variables. -/
theorem backtrackS_fuel_stable {c : CSP} :
    ∀ {f g : Nat} {d : Domains} {asn : Assignment},
      unassignedCount c asn < f → unassignedCount c asn < g →
      backtrackS c f d asn = backtrackS c g d asn := by
  intro f
  induction f with
  | zero => intro g d asn hf _; exact absurd hf (by omega)
  | succ n ih =>
      intro g d asn hf hg
      cases g with
      | zero => exact absurd hg (by omega)
      | succ m =>
          simp only [backtrackS]
          split_ifs with h1
          · rfl
          · cases hs : select_unassigned_variable c d asn with
            | none => simp only [hs]
            | some var =>
                simp only [hs]
                apply tryWords_congr
                intro d₀ w
                have hsel := select_mem hs
                have hlt := uc_append_lt (c := c) (w := w) hsel.1 hsel.2
                exact ih (by omega) (by omega)

theorem InvA_nil (c : CSP) (d : Domains) : InvA c d [] := by
  refine ⟨List.nodup_nil, ?_, ?_⟩ <;> intro p hp <;> simp at hp

theorem InvA_append {c : CSP} {d : Domains} {asn : Assignment} {var : Var} {w : Word}
    (h : InvA c d asn) (hv : var ∈ c.vars) (hun : assignedB asn var = false)
    (hw : w ∈ d var) : InvA c d (asn ++ [(var, w)]) := by
  refine ⟨?_, ?_, ?_⟩
  · rw [List.map_append]
    rw [List.nodup_append]
    refine ⟨h.1, by simp, ?_⟩
    intro v hv1 hv2
    simp only [List.map_cons, List.map_nil, List.mem_singleton] at hv2
    rcases List.mem_map.mp hv1 with ⟨p, hp, he⟩
    exact (assignedB_false_iff.mp hun p hp) (he.trans hv2)
  · intro p hp
    rcases List.mem_append.mp hp with h1 | h1
    · exact h.2.1 p h1
    · simp only [List.mem_singleton] at h1
      rw [h1]
      exact hv
  · intro p hp
    rcases List.mem_append.mp hp with h1 | h1
    · exact h.2.2 p h1
    · simp only [List.mem_singleton] at h1
      rw [h1]
      exact hw

/-- Any success of the candidate loop is a success of the recursive search
on a consistent one-variable extension; the invariant, the completeness
count and consistency carry over. -/
theorem tryWords_some {c : CSP} {n : Nat} {d : Domains} {var : Var} {asn : Assignment}
    (hbt : ∀ {d₀ : Domains} {asn₀ a₀ : Assignment}, InvA c d₀ asn₀ →
      (backtrackS c n d₀ asn₀).1 = some a₀ →
      InvA c d₀ a₀ ∧ a₀.length = c.vars.length ∧
        (consistent c asn₀ = true → consistent c a₀ = true))
    (hInv : InvA c d asn) (hv : var ∈ c.vars) (hun : assignedB asn var = false) :
    ∀ {ws : List Word} {a : Assignment}, (∀ w ∈ ws, w ∈ d var) →
      (tryWords c (fun d' a' => backtrackS c n d' a') var asn d ws).1 = some a →
      InvA c d a ∧ a.length = c.vars.length ∧ consistent c a = true := by
  intro ws
  induction ws with
  | nil => intro a _ h; simp [tryWords] at h
  | cons w rest ih =>
      intro a hws h
      simp only [tryWords] at h
      split_ifs at h with h1
      · rcases hb : backtrackS c n d (asn ++ [(var, w)]) with ⟨r, d2⟩
        simp only [hb] at h
        cases r with
        | some a' =>
            simp only at h
            have hres := hbt
              (InvA_append hInv hv hun (hws w (List.mem_cons_self _ _)))
              (show (backtrackS c n d (asn ++ [(var, w)])).1 = some a' by rw [hb])
            have ha : a' = a := by simpa using h
            rw [← ha]
            exact ⟨hres.1, hres.2.1, hres.2.2 h1⟩
        | none =>
            simp only at h
            have hd2 : d2 = d := by
              have := backtrackS_frame (c := c) n d (asn ++ [(var, w)])
              rw [hb] at this
              exact this
            rw [hd2] at h
            exact ih (fun w' hw' => hws w' (List.mem_cons_of_mem _ hw')) h
      · exact ih (fun w' hw' => hws w' (List.mem_cons_of_mem _ hw')) h

/-- Any assignment the search returns satisfies the invariant, has exactly
one entry per variable counted, and — when started from a consistent
assignment — passes the full consistency check. -/
theorem backtrackS_some {c : CSP} :
    ∀ {fuel : Nat} {d : Domains} {asn a : Assignment},
      InvA c d asn → (backtrackS c fuel d asn).1 = some a →
      InvA c d a ∧ a.length = c.vars.length ∧
        (consistent c asn = true → consistent c a = true) := by
  intro fuel
  induction fuel with
  | zero => intro d asn a _ h; simp [backtrackS] at h
  | succ n ih =>
      intro d asn a hInv h
      simp only [backtrackS] at h
      split_ifs at h with h1
      · have ha : asn = a := by simpa using h
        rw [← ha]
        exact ⟨hInv, h1, fun hc => hc⟩
      · cases hs : select_unassigned_variable c d asn with
        | none => rw [hs] at h; simp at h
        | some var =>
            rw [hs] at h
            simp only at h
            have hsel := select_mem hs
            have hres := tryWords_some (fun {d₀ asn₀ a₀} h1 h2 => ih h1 h2)
              hInv hsel.1 hsel.2
              (fun w hw => order_domain_values_subset hw) h
            exact ⟨hres.1, hres.2.1, fun _ => hres.2.2⟩

/-- The code's `consistent` check entails the claim-level consistency
properties (given duplicate-free keys). -/
theorem consistent_to_spec {c : CSP} {a : Assignment}
    (hnd : (a.map Prod.fst).Nodup) (h : consistent c a = true) :
    SpecConsistent c a := by
  have hprops := consistentGo_props (show consistentGo c a [] a = true from h)
  refine ⟨?_, ?_, ?_⟩
  · intro p hp q hq hne
    have hpq : p ≠ q := fun he => hne (he ▸ rfl)
    exact List.Pairwise.forall (fun _ _ hr => hr.symm) hprops.1 hp hq hpq
  · intro p hp
    exact (hprops.2 p hp).2.1
  · intro p hp q hq hqn
    have hfact := (hprops.2 p hp).2.2 q.1 hqn q.2
      (lookupA_of_mem hnd (by rw [Prod.mk.eta]; exact hq))
    unfold specPairOK
    cases hov : c.overlaps p.1 q.1 with
    | none => rfl
    | some ov =>
        simp only
        exact beq_iff_eq.mpr (hfact ov hov)

/-- Key counting: a duplicate-free assignment over instance variables whose
size equals the variable count assigns every variable. -/
theorem complete_of_length {c : CSP} {a : Assignment} (hvars : c.vars.Nodup)
    (hnd : (a.map Prod.fst).Nodup) (hsub : ∀ p ∈ a, p.1 ∈ c.vars)
    (hlen : a.length = c.vars.length) : SpecComplete c a := by
  have hkeysub : (a.map Prod.fst).toFinset ⊆ c.vars.toFinset := by
    intro v hv
    rcases List.mem_map.mp (List.mem_toFinset.mp hv) with ⟨p, hp, he⟩
    exact List.mem_toFinset.mpr (he ▸ hsub p hp)
  have hcard : c.vars.toFinset.card ≤ (a.map Prod.fst).toFinset.card := by
    rw [List.toFinset_card_of_nodup hvars, List.toFinset_card_of_nodup hnd]
    simp [hlen]
  have heq := Finset.eq_of_subset_of_card_le hkeysub hcard
  intro v hv
  have hvk : v ∈ (a.map Prod.fst).toFinset := by
    rw [heq]
    exact List.mem_toFinset.mpr hv
  rcases List.mem_map.mp (List.mem_toFinset.mp hvk) with ⟨p, hp, he⟩
  exact ⟨p, hp, he⟩

/-- With an unassigned instance variable whose domain is empty, one step of
the search fails: MRV selects an empty-domain variable, the candidate list
is empty, and the loop returns `None`. -/
theorem backtrackS_empty_none {c : CSP} {d : Domains} {asn : Assignment} {v : Var}
    (hvars : c.vars.Nodup) (hnd : (asn.map Prod.fst).Nodup)
    (hsub : ∀ p ∈ asn, p.1 ∈ c.vars) (hv : v ∈ c.vars)
    (hun : assignedB asn v = false) (hd : d v = []) (fuel : Nat) :
    backtrackS c (fuel + 1) d asn = (none, d) := by
  have hvne : v ∉ asn.map Prod.fst := by
    intro hm
    rcases List.mem_map.mp hm with ⟨p, hp, he⟩
    exact assignedB_false_iff.mp hun p hp he
  have hss : (asn.map Prod.fst).toFinset ⊂ c.vars.toFinset := by
    refine (Finset.ssubset_iff_of_subset ?_).mpr
      ⟨v, List.mem_toFinset.mpr hv, fun hm => hvne (List.mem_toFinset.mp hm)⟩
    intro u hu
    rcases List.mem_map.mp (List.mem_toFinset.mp hu) with ⟨p, hp, he⟩
    exact List.mem_toFinset.mpr (he ▸ hsub p hp)
  have hlt := Finset.card_lt_card hss
  rw [List.toFinset_card_of_nodup hnd, List.toFinset_card_of_nodup hvars] at hlt
  rw [List.length_map] at hlt
  simp only [backtrackS]
  rw [if_neg (by omega : ¬(asn.length = c.vars.length))]
  rcases select_picks_empty hv hun hd with ⟨var, hsel, hdv⟩
  rw [hsel]
  simp only
  rw [order_domain_values_nil hdv]
  rfl

/-! ### The claims -/

/-- C1: for every crossword instance (duplicate-free variable list) and
every domain store, any assignment `backtrack` returns when started from
the empty assignment is complete — it assigns a word to every variable —
and consistent in the claim's sense: no word appears for two variables,
every assigned word's length equals its variable's length, and every pair
of assigned neighboring variables agrees at their overlap offsets. -/
theorem claim_c1 {c : CSP} {d : Domains} {a : Assignment} (hvars : c.vars.Nodup)
    (h : backtrack c d [] = some a) :
    SpecComplete c a ∧ SpecConsistent c a := by
  unfold backtrack at h
  have hres := backtrackS_some (InvA_nil c d) h
  exact ⟨complete_of_length hvars hres.1.1 hres.1.2.1 hres.2.1,
    consistent_to_spec hres.1.1 (hres.2.2 rfl)⟩

theorem claim_c1_witness :
    CW.vars.Nodup ∧
    backtrack CW (initialDomains CW) [] = some [(varA, wCAT), (varD3, wCAR)] ∧
    (SpecComplete CW [(varA, wCAT), (varD3, wCAR)] ∧
      SpecConsistent CW [(varA, wCAT), (varD3, wCAR)]) :=
  ⟨by decide, by decide, claim_c1 (d := initialDomains CW) (by decide) (by decide)⟩

/-- C2 is falsified by the code: on the C-shaped instance `CEX`, `ac3` with
the default arcs returns `True`, and yet the pair (varT, varL) overlaps
while the word "den" remaining in varT's domain matches no word remaining
in varL's domain at the overlap offsets — the loop re-enqueued arcs
(x, z) instead of (z, x), so varT was never re-revised against varL's
tightened domain. -/
theorem claim_c2_code_bug :
    (ac3 CEX none (initialDomains CEX)).1 = true ∧
    CEX.overlaps varT varL = some (0, 0) ∧
    wDEN ∈ (ac3 CEX none (initialDomains CEX)).2 varT ∧
    ∀ w ∈ (ac3 CEX none (initialDomains CEX)).2 varL,
      ¬ charAt wDEN 0 = charAt w 0 := by decide

/-- C3 as stated is false at the instance `CDOG`: propagation fails
(`ac3` returns `False`), yet the backtracking search is still entered —
`solve` has no branch on the result of `ac3`. -/
theorem claim_c3_counterexample :
    ¬ ((ac3 CDOG none (enforce_node_consistency CDOG (initialDomains CDOG))).1 = false →
        (solveTraced CDOG).2 = false) := by decide

/-- C3 amended: when the `ac3` run by `solve` reports failure, `solve`
still reports no solution (returns `None`), but only because the entered
backtracking search immediately fails on an emptied domain; the search is
invoked unconditionally since `solve` discards the boolean result of
`ac3`. -/
theorem claim_c3_amended {c : CSP} (hvars : c.vars.Nodup)
    (h : (ac3 c none (enforce_node_consistency c (initialDomains c))).1 = false) :
    solve c = none ∧ (solveTraced c).2 = true := by
  constructor
  · have hfst : ∀ a ∈ resolveArcs c (none : Option (List (Var × Var))), a.1 ∈ c.vars :=
      fun a ha => defaultArcs_fst (show a ∈ defaultArcs c from ha)
    rcases ac3_false_empty hfst h with ⟨x, hx, hempty⟩
    show (backtrackS c (unassignedCount c [] + 1)
      (ac3 c none (enforce_node_consistency c (initialDomains c))).2 []).1 = none
    rw [backtrackS_empty_none hvars (by simp) (by simp) hx (by simp [assignedB])
      hempty (unassignedCount c [])]
  · rfl

theorem claim_c3_amended_witness :
    CDOG.vars.Nodup ∧
    (ac3 CDOG none (enforce_node_consistency CDOG (initialDomains CDOG))).1 = false ∧
    (solve CDOG = none ∧ (solveTraced CDOG).2 = true) :=
  ⟨by decide, by decide, claim_c3_amended (by decide) (by decide)⟩

/-- C4: on an instance with no complete consistent assignment over the
domain store, the search from the empty assignment returns the explicit
no-solution value `None`; and its recursion depth is bounded by the number
of variables — any fuel beyond `|vars| + 1` is never consumed. -/
theorem claim_c4 {c : CSP} {d : Domains} (hvars : c.vars.Nodup)
    (hnone : ∀ a : Assignment, (a.map Prod.fst).Nodup → (∀ p ∈ a, p.2 ∈ d p.1) →
      SpecComplete c a → SpecConsistent c a → False) :
    backtrack c d [] = none ∧
      ∀ k, backtrackS c (c.vars.length + 1 + k) d [] =
        backtrackS c (c.vars.length + 1) d [] := by
  constructor
  · cases hres : backtrack c d [] with
    | none => rfl
    | some a =>
        exfalso
        unfold backtrack at hres
        have hr := backtrackS_some (InvA_nil c d) hres
        exact hnone a hr.1.1 hr.1.2.2
          (complete_of_length hvars hr.1.1 hr.1.2.1 hr.2.1)
          (consistent_to_spec hr.1.1 (hr.2.2 rfl))
  · intro k
    have huc : unassignedCount c [] = c.vars.length := by
      simp [unassignedCount, assignedB]
    exact backtrackS_fuel_stable (by omega) (by omega)

theorem claim_c4_witness :
    backtrack CDOG (fun _ => []) [] = none ∧
      ∀ k, backtrackS CDOG (CDOG.vars.length + 1 + k) (fun _ => []) [] =
        backtrackS CDOG (CDOG.vars.length + 1) (fun _ => []) [] :=
  claim_c4 (by decide) (fun a _ hw hcomp _ => by
    rcases hcomp varA (by decide) with ⟨p, hp, _⟩
    simpa using hw p hp)

/-- C5 is falsified by the code: at the arc (varL, varB) of the instance
`CEX`, `revise` removes words and leaves varL's domain non-empty, and the
arcs `ac3` then pushes are exactly `[(varL, varT)]` — first component the
revised variable `x` — rather than the arc `(varT, varL)` the claim
requires. -/
theorem claim_c5_code_bug :
    (revise CEX varL varB (initialDomains CEX)).1 = true ∧
    ((revise CEX varL varB (initialDomains CEX)).2 varL).length ≠ 0 ∧
    ac3Requeue CEX varL varB = [(varL, varT)] ∧
    (varT, varL) ∉ ac3Requeue CEX varL varB := by decide

/-- C6: whenever `ac3` — run from any initial arc list drawn from the
instance's variables — returns failure, some variable's domain is empty in
the store at the moment of return. -/
theorem claim_c6 {c : CSP} {arcs : Option (List (Var × Var))} {d : Domains}
    (hfst : ∀ a ∈ resolveArcs c arcs, a.1 ∈ c.vars)
    (h : (ac3 c arcs d).1 = false) :
    ∃ x ∈ c.vars, (ac3 c arcs d).2 x = [] :=
  ac3_false_empty hfst h

theorem claim_c6_witness :
    (∀ a ∈ resolveArcs CDOG (some [(varA, varD4), (varD4, varA)]), a.1 ∈ CDOG.vars) ∧
    (ac3 CDOG (some [(varA, varD4), (varD4, varA)])
      (enforce_node_consistency CDOG (initialDomains CDOG))).1 = false ∧
    ∃ x ∈ CDOG.vars, (ac3 CDOG (some [(varA, varD4), (varD4, varA)])
      (enforce_node_consistency CDOG (initialDomains CDOG))).2 x = [] :=
  ⟨by decide, by decide, claim_c6 (by decide) (by decide)⟩

/-- C7: `revise(x, y)` never adds words to any domain; with an overlap
entry it keeps exactly the words of `domains[x]` having a match in
`domains[y]`; with no overlap entry it returns `False` leaving the store
untouched; and a second consecutive call removes nothing and returns
`False`.  (The hypothesis rules out the degenerate self-arc `(x, x)` with
an overlap entry, which a crossword instance never produces.) -/
theorem claim_c7 {c : CSP} {x y : Var} {d : Domains}
    (hxy : x = y → c.overlaps x y = none) :
    (∀ v w, w ∈ (revise c x y d).2 v → w ∈ d v) ∧
    (∀ ov, c.overlaps x y = some ov →
      ∀ w ∈ d x, (w ∈ (revise c x y d).2 x ↔ hasMatch (d y) ov w = true)) ∧
    (c.overlaps x y = none → (revise c x y d).1 = false ∧ (revise c x y d).2 = d) ∧
    ((revise c x y (revise c x y d).2).1 = false ∧
      ∀ v, (revise c x y (revise c x y d).2).2 v = (revise c x y d).2 v) := by
  refine ⟨fun v w h => revise_sub h, ?_, ?_, ?_⟩
  · intro ov hov w hw
    rw [revise_keep_iff hov w]
    simp [hw]
  · intro hov
    constructor
    · simp only [revise, hov]
    · simp only [revise, hov]
  · have hchanged : (revise c x y (revise c x y d).2).1 = false := by
      cases hov : c.overlaps x y with
      | none => simp only [revise, hov]
      | some ov =>
          by_contra hc
          rw [Bool.not_eq_false] at hc
          rcases (revise_changed_iff hov).mp hc with ⟨w, hw, hmf⟩
          have hxne : x ≠ y := fun he => by
            rw [hxy he] at hov
            exact Option.noConfusion hov
          have hkeep := (revise_keep_iff hov w).mp hw
          have hdy : (revise c x y d).2 y = d y := revise_other (Ne.symm hxne)
          rw [hdy, hkeep.2] at hmf
          exact Bool.noConfusion hmf
    exact ⟨hchanged, revise_false_unchanged hchanged⟩

theorem claim_c7_witness :
    (varA = varD3 → CW.overlaps varA varD3 = none) ∧
    ((∀ v w, w ∈ (revise CW varA varD3 (initialDomains CW)).2 v →
        w ∈ initialDomains CW v) ∧
     (∀ ov, CW.overlaps varA varD3 = some ov → ∀ w ∈ initialDomains CW varA,
        (w ∈ (revise CW varA varD3 (initialDomains CW)).2 varA ↔
          hasMatch (initialDomains CW varD3) ov w = true)) ∧
     (CW.overlaps varA varD3 = none →
        (revise CW varA varD3 (initialDomains CW)).1 = false ∧
        (revise CW varA varD3 (initialDomains CW)).2 = initialDomains CW) ∧
     ((revise CW varA varD3 (revise CW varA varD3 (initialDomains CW)).2).1 = false ∧
       ∀ v, (revise CW varA varD3 (revise CW varA varD3 (initialDomains CW)).2).2 v =
         (revise CW varA varD3 (initialDomains CW)).2 v)) :=
  ⟨by decide, claim_c7 (by decide)⟩

/-- C8: after `enforce_node_consistency`, a word remains in a variable's
domain exactly when it was there before and its length equals the
variable's length — every remaining word fits, and only length-mismatched
words were removed. -/
theorem claim_c8 {c : CSP} {d : Domains} (hvars : c.vars.Nodup) :
    ∀ v ∈ c.vars, ∀ w : Word,
      (w ∈ enforce_node_consistency c d v ↔ w ∈ d v ∧ w.length = v.length) := by
  intro v hv w
  unfold enforce_node_consistency
  rw [encFold_mem c.vars hvars d v hv, List.mem_filter]
  simp

theorem claim_c8_witness :
    CDOG.vars.Nodup ∧
    (wCAT ∈ enforce_node_consistency CDOG (initialDomains CDOG) varA ↔
      wCAT ∈ initialDomains CDOG varA ∧ wCAT.length = varA.length) ∧
    (wDOGS ∈ enforce_node_consistency CDOG (initialDomains CDOG) varA ↔
      wDOGS ∈ initialDomains CDOG varA ∧ wDOGS.length = varA.length) :=
  ⟨by decide, claim_c8 (by decide) varA (by decide) wCAT,
    claim_c8 (by decide) varA (by decide) wDOGS⟩

/-- C9: during search the domain store is read-only — the store-threaded
search returns its store unchanged for every instance, fuel, store and
assignment — while the consistency-enforcement phase
(`enforce_node_consistency` and `ac3` via `revise`) only ever shrinks
domains. -/
theorem claim_c9 :
    (∀ (c : CSP) (fuel : Nat) (d : Domains) (asn : Assignment),
        (backtrackS c fuel d asn).2 = d) ∧
    (∀ (c : CSP) (d : Domains) (v : Var) (w : Word),
        w ∈ enforce_node_consistency c d v → w ∈ d v) ∧
    (∀ (c : CSP) (arcs : Option (List (Var × Var))) (d : Domains) (v : Var) (w : Word),
        w ∈ (ac3 c arcs d).2 v → w ∈ d v) :=
  ⟨fun _ fuel d asn => backtrackS_frame fuel d asn,
   fun c d v w h => encFold_sub c.vars d v w h,
   fun _ _ _ _ _ h => ac3_sub h⟩

theorem claim_c9_witness :
    (backtrackS CW 3 (initialDomains CW) []).2 = initialDomains CW ∧
    (wCAT ∈ enforce_node_consistency CDOG (initialDomains CDOG) varA →
      wCAT ∈ initialDomains CDOG varA) ∧
    (wCAT ∈ (ac3 CEX none (initialDomains CEX)).2 varL →
      wCAT ∈ initialDomains CEX varL) :=
  ⟨claim_c9.1 CW 3 (initialDomains CW) [],
   fun h => claim_c9.2.1 CDOG (initialDomains CDOG) varA wCAT h,
   fun h => claim_c9.2.2 CEX none (initialDomains CEX) varL wCAT h⟩

/-- C10: if some instance variable has an empty domain, `backtrack` on any
assignment with duplicate-free instance keys not containing that variable
returns `None`; hence, whenever the store left by `solve`'s propagation
phase has an empty domain, `solve` reports no solution even though it
discarded the boolean result of `ac3`. -/
theorem claim_c10 {c : CSP} {d : Domains} {asn : Assignment} {v : Var}
    (hvars : c.vars.Nodup) (hnd : (asn.map Prod.fst).Nodup)
    (hsub : ∀ p ∈ asn, p.1 ∈ c.vars) (hv : v ∈ c.vars)
    (hun : assignedB asn v = false) (hd : d v = []) :
    backtrack c d asn = none ∧
      ((ac3 c none (enforce_node_consistency c (initialDomains c))).2 v = [] →
        solve c = none) := by
  constructor
  · unfold backtrack
    rw [backtrackS_empty_none hvars hnd hsub hv hun hd (unassignedCount c asn)]
  · intro hd2
    show (backtrackS c (unassignedCount c [] + 1)
      (ac3 c none (enforce_node_consistency c (initialDomains c))).2 []).1 = none
    rw [backtrackS_empty_none hvars (by simp) (by simp) hv (by simp [assignedB])
      hd2 (unassignedCount c [])]

theorem claim_c10_witness :
    CDOG.vars.Nodup ∧
    (ac3 CDOG none (enforce_node_consistency CDOG (initialDomains CDOG))).2 varA = [] ∧
    (backtrack CDOG ((ac3 CDOG none (enforce_node_consistency CDOG (initialDomains CDOG))).2) [] = none ∧
      ((ac3 CDOG none (enforce_node_consistency CDOG (initialDomains CDOG))).2 varA = [] →
        solve CDOG = none)) :=
  ⟨by decide, by decide,
    claim_c10 (by decide) (by decide) (by decide) (by decide) (by decide) (by decide)⟩

end Crossword
